import Mathlib

/-!
Shallow embedding of `mutual_info.py` (KSG estimators for mutual information
and conditional mutual information).

Modelling conventions:
* Sample arrays are rational-valued (`ℚ`); NumPy float64 values are modelled
  exactly.  Per the design notes of the specification, the `np.nextafter`
  nudge of the per-sample radius only serves to turn the comparison
  `dist <= nextafter(d, 0)` into the strict comparison `dist < d` (for
  `d > 0`; for `d = 0` it leaves `dist <= 0`).  The model therefore keeps the
  exact k-th-neighbour distance as the radius and folds the nudge into
  `withinNudged`, the comparison used by the radius-count query.
* `scipy.special.digamma` is an external numeric primitive; it is modelled as
  an arbitrary function `ψ : ℚ → ℚ` that the estimators take as a parameter.
* The fresh random generator created by `default_rng()` is modelled as a
  function `noise : ℕ → ℕ → ℕ → ℚ` giving the raw variate used for block b,
  row i, column j; the estimators are universally quantified over it.
* Exceptions raised by the Python code are modelled with `Except Err`;
  KD-tree constructions are recorded as `Event.indexBuilt` entries so that
  statements of the form "detected before any index construction" can be
  expressed: a computation returns its event trace next to its result.
-/

attribute [local semireducible] Rat.mul Rat.add Rat.sub Rat.inv

abbrev Vec := List ℚ

abbrev Mat := List (List ℚ)

/-- Error taxonomy of the specification; each constructor stands for the
`ValueError` the Python code raises in the corresponding situation. -/
inductive Err where
  | invalidShape
  | invalidNoiseKind
  | dimensionMismatch
  | insufficientSamples
  deriving DecidableEq, Repr

/-- A KD-tree construction (`KDTree(...)`), recorded in the event trace. -/
inductive Event where
  | indexBuilt
  deriving DecidableEq, Repr

instance exceptDecEq {ε α : Type} [DecidableEq ε] [DecidableEq α] :
    DecidableEq (Except ε α) := fun a b =>
  match a, b with
  | .error e, .error f =>
      if h : e = f then .isTrue (by rw [h]) else .isFalse (by simp [h])
  | .error _, .ok _ => .isFalse (by simp)
  | .ok _, .error _ => .isFalse (by simp)
  | .ok a, .ok b =>
      if h : a = b then .isTrue (by rw [h]) else .isFalse (by simp [h])

/-- A computation that may raise, paired with the trace of KD-tree
constructions it performed before returning. -/
abbrev EComp (α : Type) := List Event × Except Err α

/-- Sequencing of traced computations: events accumulate, errors cut the
computation short (as a raised Python exception does). -/
def bindE {α β : Type} (m : EComp α) (f : α → EComp β) : EComp β :=
  match m with
  | (evs, .error e) => (evs, .error e)
  | (evs, .ok a) => (evs ++ (f a).1, (f a).2)

/-- The value passed as `noise_type`.  `none` is Python `None`; `falsy tag`
stands for the falsy non-`None` values (`0`, `False`, the empty string);
`invalid tag` stands for a truthy value other than the two recognized
strings. -/
inductive NoiseArg where
  | none
  | falsy (tag : ℕ)
  | uniform
  | normal
  | invalid (tag : ℕ)
  deriving DecidableEq, Repr

/-- Python truthiness of the `noise_type` argument (`if noise_type:`). -/
def NoiseArg.truthy : NoiseArg → Bool
  | .none => false
  | .falsy _ => false
  | _ => true

/-- An input array as `compute_mi` and `compute_cmi` receive it: rank 1,
rank 2 (rows = samples), or some other rank (whose contents are irrelevant
because `ensure_2d` rejects it before any use). -/
inductive NDArray where
  | rank1 (v : Vec)
  | rank2 (m : Mat)
  | rankOther (rank : ℕ)

/-- `len(x)` on the raw input: the leading dimension. -/
def ndlen : NDArray → ℕ
  | .rank1 v => v.length
  | .rank2 m => m.length
  | .rankOther _ => 0

/-- `x.reshape(-1, 1)`: a length-`n` vector becomes an `n × 1` matrix. -/
def toCol (v : Vec) : Mat := v.map fun a => [a]

/-- `ensure_2d` from the source: `if x.ndim == 1: x = x.reshape(-1, 1)
else: raise ValueError(...)`.  Note that the `else` branch fires for every
rank other than 1, including rank 2. -/
def ensure_2d : NDArray → Except Err Mat
  | .rank1 v => .ok (toCol v)
  | .rank2 _ => .error .invalidShape
  | .rankOther _ => .error .invalidShape

/-- Row-wise concatenation of two matrices with equal row counts
(the data movement of `np.hstack`). -/
def hstackT (x y : Mat) : Mat := List.zipWith (· ++ ·) x y

/-- `np.hstack((x, y))`: raises unless the sample counts agree. -/
def hstack2 (x y : Mat) : Except Err Mat :=
  if x.length = y.length then .ok (hstackT x y) else .error .dimensionMismatch

/-- `np.hstack((x, y, z))`: raises unless all three sample counts agree. -/
def hstack3 (x y z : Mat) : Except Err Mat :=
  if x.length = y.length ∧ y.length = z.length then
    .ok (hstackT (hstackT x y) z)
  else .error .dimensionMismatch

/-- `np.mean` of a list of rationals. -/
def qmean (l : List ℚ) : ℚ := l.sum / l.length

/-- Pair every entry of a list with its index. -/
def withIdx {α : Type} (l : List α) : List (ℕ × α) :=
  (List.range l.length).zip l

/-- `np.maximum(1, np.mean(np.abs(x), axis=0))`: per-column mean magnitude,
floored at 1. -/
def colAbsMeans (x : Mat) : List ℚ :=
  (List.range (x.headD []).length).map fun j =>
    max 1 (qmean (x.map fun row => |row.getD j 0|))

/-- Default `amplitude=1e-10` of `add_noise`. -/
def amp0 : ℚ := 1 / 10 ^ 10

/-- `add_noise` from the source: perturb each entry by
`amplitude * means[j] * v` where `v` is the raw variate (`rng.random - 0.5`
for the uniform kind, `rng.normal` for the normal kind); any other kind
raises `ValueError('Invalid noise type')`. -/
def add_noise (x : Mat) (noise : ℕ → ℕ → ℚ) (kind : NoiseArg) (amp : ℚ) :
    Except Err Mat :=
  let means := colAbsMeans x
  match kind with
  | .uniform => .ok ((withIdx x).map fun ir =>
      (withIdx ir.2).map fun ja =>
        ja.2 + amp * means.getD ja.1 0 * (noise ir.1 ja.1 - 1 / 2))
  | .normal => .ok ((withIdx x).map fun ir =>
      (withIdx ir.2).map fun ja =>
        ja.2 + amp * means.getD ja.1 0 * noise ir.1 ja.1)
  | _ => .error .invalidNoiseKind

/-- Chebyshev (L-infinity) distance between two rows. -/
def cheb (p q : Vec) : ℚ :=
  (List.zipWith (fun a b => |a - b|) p q).foldr max 0

/-- The distances from `p` to every point of `pts` (the point itself
included when `p ∈ pts`), in ascending order — what `kd.query` consults. -/
def sortedDists (pts : Mat) (p : Vec) : List ℚ :=
  List.insertionSort (· ≤ ·) (pts.map (cheb p))

/-- `kd.query(x, k=nn+1)[0][:, -1]` for one point: the distance to the
`nn+1`-st nearest point of the set, the query point itself counting as the
nearest (index `nn`, 0-based, of the ascending distance list). -/
def kthDist (pts : Mat) (p : Vec) (nn : ℕ) : ℚ :=
  (sortedDists pts p).getD nn 0

/-- The per-sample radii `get_radius_kneighbors` derives from a point set
(kept un-nudged; see the module comment). -/
def jointRadii (pts : Mat) (nn : ℕ) : List ℚ :=
  pts.map fun p => kthDist pts p nn

/-- `get_radius_kneighbors` from the source: builds a KD-tree (recorded as
an event), then queries `nn+1` neighbours per point, which `sklearn` rejects
when `nn + 1` exceeds the number of points. -/
def get_radius_kneighbors (pts : Mat) (nn : ℕ) : EComp (List ℚ) :=
  ([.indexBuilt],
    if pts.length < nn + 1 then .error .insufficientSamples
    else .ok (jointRadii pts nn))

/-- `dist <= nextafter(r, 0)` for an exact k-th-neighbour distance `r`:
strictly below `r` when `r > 0`; at most `0` when `r = 0`. -/
def withinNudged (dist r : ℚ) : Bool :=
  if 0 < r then decide (dist < r) else decide (dist ≤ 0)

/-- `kd.query_radius(x, radius, count_only=True)` for one point: the number
of points of the set (the query point itself included) within the nudged
radius. -/
def countWithin (pts : Mat) (p : Vec) (r : ℚ) : ℕ :=
  (pts.filter fun q => withinNudged (cheb p q) r).length

/-- The vector of self-excluded counts `num_points_within_radius` returns:
per point, the within-radius count minus one (the point itself). -/
def countsList (pts : Mat) (radii : List ℚ) : List ℕ :=
  (pts.zip radii).map fun pr => countWithin pts pr.1 pr.2 - 1

/-- `num_points_within_radius` from the source: builds a KD-tree (recorded
as an event) and returns the self-excluded within-radius counts. -/
def num_points_within_radius (pts : Mat) (radii : List ℚ) : EComp (List ℕ) :=
  ([.indexBuilt], .ok (countsList pts radii))

/-- `xy[mask]`: the rows whose radius is exactly zero. -/
def maskedRows (pts : Mat) (radii : List ℚ) : Mat :=
  ((pts.zip radii).filter fun pr => decide (pr.2 = 0)).map Prod.fst

/-- The per-sample neighbour counts `k`: `np.full(n, n_neighbors)`, then —
only when `noise_type is None` — every sample with zero radius gets the
multiplicity of its joint row among the zero-radius samples minus one
(`np.unique(xy[mask], ...)`; `k[mask] = counts[ix] - 1`). -/
def miKvec (pts : Mat) (radii : List ℚ) (nn : ℕ) (nt : NoiseArg) : List ℕ :=
  if nt = .none then
    (pts.zip radii).map fun pr =>
      if pr.2 = 0 then
        ((maskedRows pts radii).filter fun q => decide (q = pr.1)).length - 1
      else nn
  else List.replicate pts.length nn

/-- The raw (un-clamped) bivariate KSG estimate:
`digamma(n) + mean(digamma(k)) - mean(digamma(nx+1)) - mean(digamma(ny+1))`. -/
def miRaw (ψ : ℚ → ℚ) (n : ℕ) (k nx ny : List ℕ) : ℚ :=
  ψ n + qmean (k.map fun v : ℕ => ψ (v : ℚ))
    - qmean (nx.map fun v : ℕ => ψ ((v : ℚ) + 1))
    - qmean (ny.map fun v : ℕ => ψ ((v : ℚ) + 1))

/-- The raw (un-clamped) conditional KSG estimate:
`mean(digamma(k)) - mean(digamma(nxz+1)) - mean(digamma(nyz+1))
 + mean(digamma(nz+1))` — no `digamma(n)` term. -/
def cmiRaw (ψ : ℚ → ℚ) (k nxz nyz nz : List ℕ) : ℚ :=
  qmean (k.map fun v : ℕ => ψ (v : ℚ))
    - qmean (nxz.map fun v : ℕ => ψ ((v : ℚ) + 1))
    - qmean (nyz.map fun v : ℕ => ψ ((v : ℚ) + 1))
    + qmean (nz.map fun v : ℕ => ψ ((v : ℚ) + 1))

/-- `add_noise` applied to the two blocks in order, with the one fresh
generator's draws split per block. -/
def noisePair (x2 y2 : Mat) (nt : NoiseArg) (noise : ℕ → ℕ → ℕ → ℚ) :
    Except Err (Mat × Mat) :=
  match add_noise x2 (noise 0) nt amp0 with
  | .error e => .error e
  | .ok x3 =>
    match add_noise y2 (noise 1) nt amp0 with
    | .error e => .error e
    | .ok y3 => .ok (x3, y3)

/-- `add_noise` applied to the three blocks of `compute_cmi` in order. -/
def noiseTriple (x2 y2 z2 : Mat) (nt : NoiseArg) (noise : ℕ → ℕ → ℕ → ℚ) :
    Except Err (Mat × Mat × Mat) :=
  match add_noise x2 (noise 0) nt amp0 with
  | .error e => .error e
  | .ok x3 =>
    match add_noise y2 (noise 1) nt amp0 with
    | .error e => .error e
    | .ok y3 =>
      match add_noise z2 (noise 2) nt amp0 with
      | .error e => .error e
      | .ok z3 => .ok (x3, y3, z3)

/-- The index-free front of `compute_mi`: `ensure_2d` on both blocks, the
optional jitter, and `np.hstack((x, y))`; returns the two (possibly
jittered) blocks and the joint matrix. -/
def miPrep (x y : NDArray) (nt : NoiseArg) (noise : ℕ → ℕ → ℕ → ℚ) :
    Except Err (Mat × Mat × Mat) :=
  match ensure_2d x with
  | .error e => .error e
  | .ok x2 =>
    match ensure_2d y with
    | .error e => .error e
    | .ok y2 =>
      match (if nt.truthy then noisePair x2 y2 nt noise else .ok (x2, y2)) with
      | .error e => .error e
      | .ok p =>
        match hstack2 p.1 p.2 with
        | .error e => .error e
        | .ok xy => .ok (p.1, p.2, xy)

/-- `compute_mi` from the source, with `digamma` abstracted as `ψ` and the
fresh generator abstracted as `noise`. -/
def compute_mi (ψ : ℚ → ℚ) (x y : NDArray) (nn : ℕ) (nt : NoiseArg)
    (noise : ℕ → ℕ → ℕ → ℚ) : EComp ℚ :=
  let n := ndlen x
  match miPrep x y nt noise with
  | .error e => ([], .error e)
  | .ok (x3, y3, xy) =>
    bindE (get_radius_kneighbors xy nn) fun radii =>
    let k := miKvec xy radii nn nt
    bindE (num_points_within_radius x3 radii) fun nx =>
    bindE (num_points_within_radius y3 radii) fun ny =>
    ([], .ok (max 0 (miRaw ψ n k nx ny)))

/-- The index-free front of `compute_cmi`: `ensure_2d` on the three blocks,
the optional jitter, and `np.hstack((x, y, z))`. -/
def cmiPrep (x y z : NDArray) (nt : NoiseArg) (noise : ℕ → ℕ → ℕ → ℚ) :
    Except Err (Mat × Mat × Mat × Mat) :=
  match ensure_2d x with
  | .error e => .error e
  | .ok x2 =>
    match ensure_2d y with
    | .error e => .error e
    | .ok y2 =>
      match ensure_2d z with
      | .error e => .error e
      | .ok z2 =>
        match (if nt.truthy then noiseTriple x2 y2 z2 nt noise
               else .ok (x2, y2, z2)) with
        | .error e => .error e
        | .ok p =>
          match hstack3 p.1 p.2.1 p.2.2 with
          | .error e => .error e
          | .ok xyz => .ok (p.1, p.2.1, p.2.2, xyz)

/-- `compute_cmi` from the source, with `digamma` abstracted as `ψ` and the
fresh generator abstracted as `noise`. -/
def compute_cmi (ψ : ℚ → ℚ) (x y z : NDArray) (nn : ℕ) (nt : NoiseArg)
    (noise : ℕ → ℕ → ℕ → ℚ) : EComp ℚ :=
  -- `n_samples = len(x)` is only consulted for the length of the `k`
  -- vector, which equals the joint row count once `hstack3` has succeeded;
  -- the conditional formula itself has no `digamma(n)` term.
  match cmiPrep x y z nt noise with
  | .error e => ([], .error e)
  | .ok (x3, y3, z3, xyz) =>
    bindE (get_radius_kneighbors xyz nn) fun radii =>
    let k := miKvec xyz radii nn nt
    bindE (num_points_within_radius (hstackT x3 z3) radii) fun nxz =>
    bindE (num_points_within_radius (hstackT y3 z3) radii) fun nyz =>
    bindE (num_points_within_radius z3 radii) fun nz =>
    ([], .ok (max 0 (cmiRaw ψ k nxz nyz nz)))

/-- The number of other points (self excluded) of `pts` whose nudged
distance to point `i` is within `r` — the quantity the specification calls
`CountWithinRadius`. -/
def specCountOthersWithin (pts : Mat) (i : ℕ) (r : ℚ) : ℕ :=
  ((List.range pts.length).filter fun j =>
    decide (j ≠ i) && withinNudged (cheb (pts.getD i []) (pts.getD j [])) r).length

theorem cheb_self (p : Vec) : cheb p p = 0 := by
  induction p with
  | nil => rfl
  | cons a t ih =>
      unfold cheb at ih ⊢
      rw [List.zipWith_cons_cons, List.foldr_cons, sub_self, abs_zero, ih,
        max_self]

theorem foldr_max_nonneg (l : List ℚ) : 0 ≤ l.foldr max 0 := by
  induction l with
  | nil => exact le_refl 0
  | cons a t ih => exact le_trans ih (le_max_right a _)

theorem cheb_nonneg (p q : Vec) : 0 ≤ cheb p q := foldr_max_nonneg _

theorem withinNudged_zero_left (r : ℚ) : withinNudged 0 r = true := by
  unfold withinNudged
  split <;> simp_all

theorem countP_eq_countP_range {α : Type} (l : List α) (f : α → Bool)
    (d : α) :
    l.countP f = (List.range l.length).countP fun j => f (l.getD j d) := by
  induction l with
  | nil => simp
  | cons a t ih =>
      rw [List.countP_cons, List.length_cons, List.range_succ_eq_map,
        List.countP_cons, List.countP_map]
      have h2 : ((fun j => f ((a :: t).getD j d)) ∘ Nat.succ) =
          fun j => f (t.getD j d) := by
        funext j
        simp [Function.comp, List.getD_cons_succ]
      rw [h2, ← ih, List.getD_cons_zero]

theorem countP_split_ne (l : List ℕ) (hl : l.Nodup) (i : ℕ) (hmem : i ∈ l)
    (f : ℕ → Bool) (hfi : f i = true) :
    l.countP f = 1 + l.countP fun j => decide (j ≠ i) && f j := by
  induction l with
  | nil => simp at hmem
  | cons a t ih =>
      rw [List.countP_cons, List.countP_cons]
      rcases List.mem_cons.mp hmem with ha | ht
      · subst ha
        have hat : i ∉ t := (List.nodup_cons.mp hl).1
        have ht' : t.countP (fun j => decide (j ≠ i) && f j) = t.countP f := by
          apply List.countP_congr
          intro x hx
          have hxa : x ≠ i := fun h => hat (h ▸ hx)
          simp [hxa]
        rw [ht', hfi]
        simp [Nat.add_comm]
      · have hai : a ≠ i := by
          intro h
          exact (List.nodup_cons.mp hl).1 (h ▸ ht)
        rw [ih (List.nodup_cons.mp hl).2 ht]
        have : (decide (a ≠ i) && f a) = f a := by simp [hai]
        rw [this]
        omega

theorem countWithin_split_self (pts : Mat) (i : ℕ) (hi : i < pts.length)
    (r : ℚ) :
    countWithin pts (pts.getD i []) r = 1 + specCountOthersWithin pts i r := by
  unfold countWithin specCountOthersWithin
  rw [← List.countP_eq_length_filter, ← List.countP_eq_length_filter,
    countP_eq_countP_range _ _ ([] : Vec)]
  exact countP_split_ne _ (List.nodup_range _) i (List.mem_range.mpr hi) _
    (by rw [cheb_self]; exact withinNudged_zero_left r)

theorem countsList_eq_spec (pts : Mat) (radii : List ℚ)
    (hlen : radii.length = pts.length) :
    countsList pts radii =
      (List.range pts.length).map fun i =>
        specCountOthersWithin pts i (radii.getD i 0) := by
  apply List.ext_getElem
  · simp [countsList, hlen]
  · intro n h1 h2
    have hn : n < pts.length := by
      simpa [countsList, hlen] using h1
    have hz : n < (pts.zip radii).length := by
      simp [List.length_zip, hlen]
      omega
    simp only [countsList, List.getElem_map, List.getElem_zip,
      List.getElem_range]
    rw [← List.getD_eq_getElem pts [] hn,
      countWithin_split_self pts n hn,
      ← List.getD_eq_getElem radii 0 (by omega : n < radii.length)]
    omega

theorem zip_self_map {α β : Type} (l : List α) (g : α → β) :
    l.zip (l.map g) = l.map fun a => (a, g a) := by
  have h := List.zip_map' id g l
  simpa using h

theorem maskedRows_map (pts : Mat) (g : Vec → ℚ) :
    maskedRows pts (pts.map g) = pts.filter fun q => decide (g q = 0) := by
  unfold maskedRows
  rw [zip_self_map, List.filter_map, List.map_map]
  have h1 : (Prod.fst ∘ fun a : Vec => (a, g a)) = id := rfl
  have h2 : ((fun pr : Vec × ℚ => decide (pr.2 = 0)) ∘ fun a : Vec =>
      (a, g a)) = fun q => decide (g q = 0) := rfl
  rw [h1, h2, List.map_id]

theorem miKvec_none (pts : Mat) (g : Vec → ℚ) (nn : ℕ) :
    miKvec pts (pts.map g) nn .none =
      pts.map fun p =>
        if g p = 0 then
          ((pts.filter fun q => decide (g q = 0)).filter fun q =>
            decide (q = p)).length - 1
        else nn := by
  unfold miKvec
  rw [if_pos rfl, maskedRows_map, zip_self_map, List.map_map]
  rfl

theorem masked_filter_mult (pts : Mat) (g : Vec → ℚ) (p : Vec)
    (hp : g p = 0) :
    ((pts.filter fun q => decide (g q = 0)).filter fun q => decide (q = p)) =
      pts.filter fun q => decide (q = p) := by
  rw [List.filter_filter]
  apply List.filter_congr
  intro a _
  by_cases h : a = p
  · subst h
    simp [hp]
  · simp [h]

theorem hstackT_length (x y : Mat) :
    (hstackT x y).length = min x.length y.length := by
  simp [hstackT]

theorem hstackT_rows_length (x : Mat) (y : Mat) (dx dy : ℕ)
    (hx : ∀ r ∈ x, r.length = dx) (hy : ∀ r ∈ y, r.length = dy) :
    ∀ r ∈ hstackT x y, r.length = dx + dy := by
  induction x generalizing y with
  | nil =>
      intro r hr
      simp [hstackT] at hr
  | cons a t ih =>
      cases y with
      | nil =>
          intro r hr
          simp [hstackT] at hr
      | cons b u =>
          intro r hr
          rw [hstackT, List.zipWith_cons_cons] at hr
          rcases List.mem_cons.mp hr with h | h
          · subst h
            rw [List.length_append, hx a (by simp), hy b (by simp)]
          · exact ih u (fun s hs => hx s (by simp [hs]))
              (fun s hs => hy s (by simp [hs])) r h

theorem toCol_rows_length (v : Vec) : ∀ r ∈ toCol v, r.length = 1 := by
  intro r hr
  obtain ⟨a, _, rfl⟩ := List.mem_map.mp hr
  rfl

theorem sortedDists_sorted (pts : Mat) (p : Vec) :
    (sortedDists pts p).Sorted (· ≤ ·) :=
  List.sorted_insertionSort _ _

theorem sortedDists_perm (pts : Mat) (p : Vec) :
    (sortedDists pts p).Perm (pts.map (cheb p)) :=
  List.perm_insertionSort _ _

theorem sortedDists_length (pts : Mat) (p : Vec) :
    (sortedDists pts p).length = pts.length := by
  rw [(sortedDists_perm pts p).length_eq, List.length_map]

theorem sortedDists_nonneg (pts : Mat) (p : Vec) :
    ∀ a ∈ sortedDists pts p, 0 ≤ a := by
  intro a ha
  have hm : a ∈ pts.map (cheb p) := (sortedDists_perm pts p).mem_iff.mp ha
  obtain ⟨q, _, rfl⟩ := List.mem_map.mp hm
  exact cheb_nonneg p q

theorem sortedDists_mono (pts : Mat) (p : Vec) {i j : ℕ} (hij : i ≤ j)
    (hj : j < (sortedDists pts p).length) :
    (sortedDists pts p).getD i 0 ≤ (sortedDists pts p).getD j 0 := by
  have hi : i < (sortedDists pts p).length := by omega
  rw [List.getD_eq_getElem _ _ hi, List.getD_eq_getElem _ _ hj]
  have h := (sortedDists_sorted pts p).rel_get_of_le
    (a := ⟨i, hi⟩) (b := ⟨j, hj⟩) (Fin.mk_le_mk.mpr hij)
  simpa [List.get_eq_getElem] using h

theorem kthDist_zero_mult (pts : Mat) (p : Vec) (nn : ℕ)
    (hnn : nn < pts.length) (h0 : kthDist pts p nn = 0) :
    nn + 1 ≤ (pts.map (cheb p)).countP fun v => decide (v = 0) := by
  have hlen : (sortedDists pts p).length = pts.length :=
    sortedDists_length pts p
  have hnn' : nn < (sortedDists pts p).length := by omega
  have hzero : ∀ j, j < (sortedDists pts p).length → j ≤ nn →
      (sortedDists pts p).getD j 0 = 0 := by
    intro j hj hjn
    have h1 : (sortedDists pts p).getD j 0 ≤ (sortedDists pts p).getD nn 0 :=
      sortedDists_mono pts p hjn hnn'
    have h2 : 0 ≤ (sortedDists pts p).getD j 0 := by
      rw [List.getD_eq_getElem _ _ hj]
      exact sortedDists_nonneg pts p _ (List.getElem_mem hj)
    have h3 : (sortedDists pts p).getD nn 0 = 0 := h0
    rw [h3] at h1
    exact le_antisymm h1 h2
  have htake : ((sortedDists pts p).take (nn + 1)).countP
      (fun v => decide (v = 0)) = nn + 1 := by
    rw [List.countP_eq_length.mpr, List.length_take]
    · omega
    · intro a ha
      obtain ⟨j, hj, rfl⟩ := List.mem_iff_getElem.mp ha
      have hj1 : j < (sortedDists pts p).length := by
        rw [List.length_take] at hj
        omega
      have hj2 : j ≤ nn := by
        rw [List.length_take] at hj
        omega
      rw [List.getElem_take, ← List.getD_eq_getElem _ 0 hj1,
        hzero j hj1 hj2]
      simp
  have hsplit : (sortedDists pts p).countP (fun v => decide (v = 0)) =
      ((sortedDists pts p).take (nn + 1)).countP (fun v => decide (v = 0)) +
      ((sortedDists pts p).drop (nn + 1)).countP (fun v => decide (v = 0)) := by
    conv_lhs => rw [← List.take_append_drop (nn + 1) (sortedDists pts p)]
    rw [List.countP_append]
  have hperm := (sortedDists_perm pts p).countP_eq fun v => decide (v = 0)
  omega

theorem cheb_cons (a b : ℚ) (t u : Vec) :
    cheb (a :: t) (b :: u) = max |a - b| (cheb t u) := by
  unfold cheb
  rw [List.zipWith_cons_cons, List.foldr_cons]

theorem cheb_eq_zero (p q : Vec) (h : p.length = q.length) :
    cheb p q = 0 ↔ p = q := by
  induction p generalizing q with
  | nil =>
      cases q with
      | nil => simp [cheb]
      | cons b u => simp at h
  | cons a t ih =>
      cases q with
      | nil => simp at h
      | cons b u =>
          have hlen : t.length = u.length := by
            simpa using h
          rw [cheb_cons]
          constructor
          · intro hm
            have hle : |a - b| ≤ 0 ∧ cheb t u ≤ 0 :=
              max_le_iff.mp (le_of_eq hm)
            have h3 : a = b := by
              have h4 : |a - b| = 0 := le_antisymm hle.1 (abs_nonneg _)
              have h5 := abs_eq_zero.mp h4
              linarith
            have h6 : t = u :=
              (ih u hlen).mp (le_antisymm hle.2 (cheb_nonneg t u))
            rw [h3, h6]
          · intro he
            injection he with h5 h6
            subst h5
            subst h6
            rw [sub_self, abs_zero, cheb_self, max_self]

theorem count_zero_eq_mult (pts : Mat) (p : Vec) (d : ℕ)
    (hd : ∀ r ∈ pts, r.length = d) (hp : p.length = d) :
    ((pts.map (cheb p)).countP fun v => decide (v = 0)) =
      (pts.filter fun q => decide (q = p)).length := by
  rw [List.countP_map, ← List.countP_eq_length_filter]
  apply List.countP_congr
  intro q hq
  have hlen : p.length = q.length := by rw [hp, hd q hq]
  simp only [Function.comp]
  rw [decide_eq_true_eq, decide_eq_true_eq, cheb_eq_zero p q hlen]
  constructor
  · intro h
    exact h.symm
  · intro h
    exact h.symm

theorem countP_lt_kthDist (pts : Mat) (p : Vec) (nn : ℕ) (h1 : 1 ≤ nn)
    (hnn : nn < pts.length)
    (htie : (sortedDists pts p).getD (nn - 1) 0 < kthDist pts p nn) :
    (pts.map (cheb p)).countP (fun v => decide (v < kthDist pts p nn)) =
      nn := by
  have hlen : (sortedDists pts p).length = pts.length :=
    sortedDists_length pts p
  have hnn' : nn < (sortedDists pts p).length := by omega
  have htake : ((sortedDists pts p).take nn).countP
      (fun v => decide (v < kthDist pts p nn)) = nn := by
    rw [List.countP_eq_length.mpr, List.length_take]
    · omega
    · intro a ha
      obtain ⟨j, hj, rfl⟩ := List.mem_iff_getElem.mp ha
      have hj1 : j < (sortedDists pts p).length := by
        rw [List.length_take] at hj
        omega
      have hj2 : j ≤ nn - 1 := by
        rw [List.length_take] at hj
        omega
      have hmono : (sortedDists pts p).getD j 0 ≤
          (sortedDists pts p).getD (nn - 1) 0 :=
        sortedDists_mono pts p hj2 (by omega)
      rw [List.getElem_take, ← List.getD_eq_getElem _ 0 hj1]
      rw [decide_eq_true_eq]
      exact lt_of_le_of_lt hmono htie
  have hdrop : ((sortedDists pts p).drop nn).countP
      (fun v => decide (v < kthDist pts p nn)) = 0 := by
    rw [List.countP_eq_zero]
    intro a ha
    obtain ⟨j, hj, rfl⟩ := List.mem_iff_getElem.mp ha
    have hj1 : nn + j < (sortedDists pts p).length := by
      rw [List.length_drop] at hj
      omega
    have hmono : (sortedDists pts p).getD nn 0 ≤
        (sortedDists pts p).getD (nn + j) 0 :=
      sortedDists_mono pts p (by omega) hj1
    rw [List.getElem_drop, ← List.getD_eq_getElem _ 0 hj1]
    rw [decide_eq_true_eq, not_lt]
    exact hmono
  have hsplit : (sortedDists pts p).countP
      (fun v => decide (v < kthDist pts p nn)) =
      ((sortedDists pts p).take nn).countP
        (fun v => decide (v < kthDist pts p nn)) +
      ((sortedDists pts p).drop nn).countP
        (fun v => decide (v < kthDist pts p nn)) := by
    conv_lhs => rw [← List.take_append_drop nn (sortedDists pts p)]
    rw [List.countP_append]
  have hperm := (sortedDists_perm pts p).countP_eq
    fun v => decide (v < kthDist pts p nn)
  omega

theorem miPrep_rank1_none (lx ly : Vec) (noise : ℕ → ℕ → ℕ → ℚ)
    (hlen : ly.length = lx.length) :
    miPrep (.rank1 lx) (.rank1 ly) .none noise =
      .ok (toCol lx, toCol ly, hstackT (toCol lx) (toCol ly)) := by
  have hc : (toCol lx).length = (toCol ly).length := by
    simp [toCol, hlen]
  simp only [miPrep, ensure_2d, NoiseArg.truthy, Bool.false_eq_true,
    if_false, hstack2, if_pos hc]

theorem compute_mi_rank1_none_eq (ψ : ℚ → ℚ) (noise : ℕ → ℕ → ℕ → ℚ)
    (lx ly : Vec) (nn : ℕ) (hlen : ly.length = lx.length)
    (hnn : nn + 1 ≤ lx.length) :
    compute_mi ψ (.rank1 lx) (.rank1 ly) nn .none noise =
      ([.indexBuilt, .indexBuilt, .indexBuilt],
        .ok (max 0 (miRaw ψ lx.length
          (miKvec (hstackT (toCol lx) (toCol ly))
            (jointRadii (hstackT (toCol lx) (toCol ly)) nn) nn .none)
          (countsList (toCol lx)
            (jointRadii (hstackT (toCol lx) (toCol ly)) nn))
          (countsList (toCol ly)
            (jointRadii (hstackT (toCol lx) (toCol ly)) nn))))) := by
  have hxylen : (hstackT (toCol lx) (toCol ly)).length = lx.length := by
    rw [hstackT_length]
    simp [toCol, hlen]
  have hnl : ¬ (hstackT (toCol lx) (toCol ly)).length < nn + 1 := by omega
  simp only [compute_mi, miPrep_rank1_none lx ly noise hlen,
    get_radius_kneighbors, if_neg hnl, bindE, num_points_within_radius,
    ndlen]
  rfl

theorem cmiPrep_rank1_none (lx ly lz : Vec) (noise : ℕ → ℕ → ℕ → ℚ)
    (hy : ly.length = lx.length) (hz : lz.length = lx.length) :
    cmiPrep (.rank1 lx) (.rank1 ly) (.rank1 lz) .none noise =
      .ok (toCol lx, toCol ly, toCol lz,
        hstackT (hstackT (toCol lx) (toCol ly)) (toCol lz)) := by
  have hc : (toCol lx).length = (toCol ly).length ∧
      (toCol ly).length = (toCol lz).length := by
    simp [toCol, hy, hz]
  simp only [cmiPrep, ensure_2d, NoiseArg.truthy, Bool.false_eq_true,
    if_false, hstack3, if_pos hc]

theorem compute_cmi_rank1_none_eq (ψ : ℚ → ℚ) (noise : ℕ → ℕ → ℕ → ℚ)
    (lx ly lz : Vec) (nn : ℕ) (hy : ly.length = lx.length)
    (hz : lz.length = lx.length) (hnn : nn + 1 ≤ lx.length) :
    compute_cmi ψ (.rank1 lx) (.rank1 ly) (.rank1 lz) nn .none noise =
      ([.indexBuilt, .indexBuilt, .indexBuilt, .indexBuilt],
        .ok (max 0 (cmiRaw ψ
          (miKvec (hstackT (hstackT (toCol lx) (toCol ly)) (toCol lz))
            (jointRadii (hstackT (hstackT (toCol lx) (toCol ly)) (toCol lz))
              nn) nn .none)
          (countsList (hstackT (toCol lx) (toCol lz))
            (jointRadii (hstackT (hstackT (toCol lx) (toCol ly)) (toCol lz))
              nn))
          (countsList (hstackT (toCol ly) (toCol lz))
            (jointRadii (hstackT (hstackT (toCol lx) (toCol ly)) (toCol lz))
              nn))
          (countsList (toCol lz)
            (jointRadii (hstackT (hstackT (toCol lx) (toCol ly)) (toCol lz))
              nn))))) := by
  have hxyzlen :
      (hstackT (hstackT (toCol lx) (toCol ly)) (toCol lz)).length =
        lx.length := by
    rw [hstackT_length, hstackT_length]
    simp [toCol, hy, hz]
  have hnl :
      ¬ (hstackT (hstackT (toCol lx) (toCol ly)) (toCol lz)).length <
        nn + 1 := by omega
  simp only [compute_cmi, cmiPrep_rank1_none lx ly lz noise hy hz,
    get_radius_kneighbors, if_neg hnl, bindE, num_points_within_radius]
  rfl

/-- C1: the claim says the shape normalizer maps a rank-1 array of length n
to an n-by-1 matrix, passes rank-2 input through unchanged, and rejects any
other rank.  The code disagrees on rank 2: `ensure_2d` raises its
`InvalidShape` error (`ValueError`) for every rank other than 1, including
rank 2, contradicting its own docstring (which documents
`(n_samples, n_features)` input) and its own error message
(`x.ndim not equal to 1 or 2`).  This theorem evaluates the code on a rank-1
input (reshaped to a column as claimed), a rank-2 input (rejected, contrary
to the claim), and a rank-3 input (rejected as claimed). -/
theorem c1_ensure_2d_rejects_rank2 :
    ensure_2d (.rank1 [1, 2]) = .ok [[1], [2]]
    ∧ ensure_2d (.rank2 [[1, 2], [3, 4]]) = .error .invalidShape
    ∧ ensure_2d (.rankOther 3) = .error .invalidShape := by
  refine ⟨by decide, by decide, by decide⟩

/-- C5: for rank-1 inputs with differing sample counts and a recognized
noise setting, `compute_mi` fails with the dimension-mismatch error; the
returned trace is empty, so no spatial index was constructed, and the error
value is the whole result (no partial estimate). -/
theorem c5_dimension_mismatch (ψ : ℚ → ℚ) (noise : ℕ → ℕ → ℕ → ℚ)
    (lx ly : Vec) (nn : ℕ) (nt : NoiseArg)
    (hnt : nt = .none ∨ nt = .uniform ∨ nt = .normal)
    (hne : lx.length ≠ ly.length) :
    compute_mi ψ (.rank1 lx) (.rank1 ly) nn nt noise =
      ([], .error .dimensionMismatch) := by
  have hc : ¬ ((toCol lx).length = (toCol ly).length) := by
    simpa [toCol] using hne
  rcases hnt with h | h | h <;> subst h
  · simp only [compute_mi, miPrep, ensure_2d, NoiseArg.truthy,
      Bool.false_eq_true, if_false, hstack2, if_neg hc]
  · have hcn : ¬ (((withIdx (toCol lx)).map fun ir =>
        (withIdx ir.2).map fun ja =>
          ja.2 + amp0 * (colAbsMeans (toCol lx)).getD ja.1 0 *
            (noise 0 ir.1 ja.1 - 1 / 2)).length =
        ((withIdx (toCol ly)).map fun ir =>
        (withIdx ir.2).map fun ja =>
          ja.2 + amp0 * (colAbsMeans (toCol ly)).getD ja.1 0 *
            (noise 1 ir.1 ja.1 - 1 / 2)).length) := by
      simpa [withIdx, toCol] using hne
    simp only [compute_mi, miPrep, ensure_2d, NoiseArg.truthy, if_true,
      noisePair, add_noise, hstack2, if_neg hcn]
  · have hcn : ¬ (((withIdx (toCol lx)).map fun ir =>
        (withIdx ir.2).map fun ja =>
          ja.2 + amp0 * (colAbsMeans (toCol lx)).getD ja.1 0 *
            noise 0 ir.1 ja.1).length =
        ((withIdx (toCol ly)).map fun ir =>
        (withIdx ir.2).map fun ja =>
          ja.2 + amp0 * (colAbsMeans (toCol ly)).getD ja.1 0 *
            noise 1 ir.1 ja.1).length) := by
      simpa [withIdx, toCol] using hne
    simp only [compute_mi, miPrep, ensure_2d, NoiseArg.truthy, if_true,
      noisePair, add_noise, hstack2, if_neg hcn]

/-- C5 witness: a concrete mismatched call. -/
theorem c5_witness :
    compute_mi (fun q => q) (.rank1 [0]) (.rank1 [0, 1]) 3 .none
      (fun _ _ _ => 0) = ([], .error .dimensionMismatch) :=
  c5_dimension_mismatch (fun q => q) (fun _ _ _ => 0) [0] [0, 1] 3 .none
    (Or.inl rfl) (by decide)

/-- C6 (amended): with `n_neighbors ≥ n_samples` on otherwise-valid rank-1
input, `compute_mi` and `compute_cmi` fail with the insufficient-samples
error — the failure is raised by the k-nearest-neighbour query after the
joint-space KD-tree has been built (one index-construction event in the
trace), and the neighbour count is not silently clamped. -/
theorem c6_insufficient_samples (ψ : ℚ → ℚ) (noise : ℕ → ℕ → ℕ → ℚ)
    (lx ly lz : Vec) (nn : ℕ) (hy : ly.length = lx.length)
    (hz : lz.length = lx.length) (hnn : lx.length ≤ nn) :
    compute_mi ψ (.rank1 lx) (.rank1 ly) nn .none noise =
      ([.indexBuilt], .error .insufficientSamples)
    ∧ compute_cmi ψ (.rank1 lx) (.rank1 ly) (.rank1 lz) nn .none noise =
      ([.indexBuilt], .error .insufficientSamples) := by
  have h1 : (hstackT (toCol lx) (toCol ly)).length < nn + 1 := by
    rw [hstackT_length]
    simp only [toCol, List.length_map, hy]
    omega
  have h2 : (hstackT (hstackT (toCol lx) (toCol ly)) (toCol lz)).length <
      nn + 1 := by
    rw [hstackT_length, hstackT_length]
    simp only [toCol, List.length_map, hy, hz]
    omega
  constructor
  · simp only [compute_mi, miPrep_rank1_none lx ly noise hy,
      get_radius_kneighbors, if_pos h1, bindE]
  · simp only [compute_cmi, cmiPrep_rank1_none lx ly lz noise hy hz,
      get_radius_kneighbors, if_pos h2, bindE]

/-- C6 witness: ten samples cannot serve three-or-more neighbours when
`n_neighbors` equals the sample count. -/
theorem c6_witness :
    compute_mi (fun q => q) (.rank1 [0, 1]) (.rank1 [4, 5]) 2 .none
      (fun _ _ _ => 0) = ([.indexBuilt], .error .insufficientSamples)
    ∧ compute_cmi (fun q => q) (.rank1 [0, 1]) (.rank1 [4, 5])
      (.rank1 [8, 9]) 2 .none (fun _ _ _ => 0) =
      ([.indexBuilt], .error .insufficientSamples) :=
  c6_insufficient_samples (fun q => q) (fun _ _ _ => 0) [0, 1] [4, 5] [8, 9]
    2 (by decide) (by decide) (by decide)

/-- C6 counterexample: the claim says the insufficient-samples condition is
detected as input validation before any index construction; at this concrete
input the insufficient-samples error comes back together with a non-empty
trace — the joint KD-tree was already constructed when the k-NN query
failed. -/
theorem c6_counterexample :
    compute_mi (fun q => q) (.rank1 [0, 1, 2]) (.rank1 [5, 6, 7]) 3 .none
      (fun _ _ _ => 0) = ([.indexBuilt], .error .insufficientSamples)
    ∧ ([Event.indexBuilt] : List Event) ≠ [] := by
  refine ⟨by decide, by decide⟩

/-- C7 counterexample: for the point set `{0, 1, 3}` (one dimension) with
`k = 1`, the self-excluded radius-count at the derived radius is `0` at
every point, not `k = 1`: the nudged radius excludes the k-th neighbour
itself, so the count can never reach `k`. -/
theorem c7_counterexample :
    (get_radius_kneighbors [[0], [1], [3]] 1).2 =
      .ok (jointRadii [[0], [1], [3]] 1)
    ∧ (num_points_within_radius [[0], [1], [3]]
        (jointRadii [[0], [1], [3]] 1)).2 = .ok [0, 0, 0]
    ∧ ¬ ((0 : ℕ) = 1) := by
  refine ⟨by decide, by decide, by decide⟩

/-- C7 (amended): the per-point radius stands for the value just below the
point's Chebyshev distance to its k-th nearest neighbour (self excluded),
so a radius-count on the same point set returns exactly `k - 1` other
points — `k` points counting the query point itself — provided that k-th
neighbour distance is positive and strictly larger than the (k-1)-th. -/
theorem c7_radius_count (pts : Mat) (nn i : ℕ) (h1 : 1 ≤ nn)
    (hi : i < pts.length) (hnn : nn < pts.length)
    (hpos : 0 < kthDist pts (pts.getD i []) nn)
    (htie : (sortedDists pts (pts.getD i [])).getD (nn - 1) 0 <
      kthDist pts (pts.getD i []) nn) :
    countWithin pts (pts.getD i []) (kthDist pts (pts.getD i []) nn) = nn
    ∧ (countsList pts (jointRadii pts nn)).getD i 0 = nn - 1 := by
  have hcw : countWithin pts (pts.getD i [])
      (kthDist pts (pts.getD i []) nn) = nn := by
    unfold countWithin
    rw [← List.countP_eq_length_filter]
    have hcong : pts.countP (fun q => withinNudged (cheb (pts.getD i []) q)
        (kthDist pts (pts.getD i []) nn)) =
        pts.countP fun q => decide (cheb (pts.getD i []) q <
          kthDist pts (pts.getD i []) nn) := by
      apply List.countP_congr
      intro q _
      unfold withinNudged
      rw [if_pos hpos]
    rw [hcong]
    have hmap := List.countP_map
      (fun v => decide (v < kthDist pts (pts.getD i []) nn))
      (cheb (pts.getD i [])) pts
    have hfuns : (fun q => decide (cheb (pts.getD i []) q <
        kthDist pts (pts.getD i []) nn)) =
        ((fun v => decide (v < kthDist pts (pts.getD i []) nn)) ∘
          cheb (pts.getD i [])) := rfl
    rw [hfuns, ← hmap]
    exact countP_lt_kthDist pts (pts.getD i []) nn h1 hnn htie
  refine ⟨hcw, ?_⟩
  have hrlen : (jointRadii pts nn).length = pts.length := by
    simp [jointRadii]
  have hclen : (countsList pts (jointRadii pts nn)).length = pts.length := by
    simp [countsList, List.length_zip, hrlen]
  rw [List.getD_eq_getElem _ _ (by omega)]
  have hzi : i < (pts.zip (jointRadii pts nn)).length := by
    simp [List.length_zip, hrlen]
    omega
  simp only [countsList, List.getElem_map, List.getElem_zip]
  have hri : (jointRadii pts nn)[i] = kthDist pts (pts.getD i []) nn := by
    simp only [jointRadii, List.getElem_map]
    rw [List.getD_eq_getElem _ _ hi]
  rw [hri, ← List.getD_eq_getElem pts [] hi, hcw]

/-- C7 witness for the amended statement: in `{0, 1, 3}` with `k = 1` at
the point `0`, the k-th neighbour distance is `1`, untied, and the
self-excluded count is `k - 1 = 0`. -/
theorem c7_witness :
    countWithin [[0], [1], [3]] (([[0], [1], [3]] : Mat).getD 0 [])
      (kthDist [[0], [1], [3]] (([[0], [1], [3]] : Mat).getD 0 []) 1) = 1
    ∧ (countsList [[0], [1], [3]]
        (jointRadii [[0], [1], [3]] 1)).getD 0 0 = 0 :=
  c7_radius_count [[0], [1], [3]] 1 0 (by decide) (by decide) (by decide)
    (by decide) (by decide)

/-- C2: for rank-1 blocks of equal sample count `n > n_neighbors` with the
noise argument unset, `compute_mi` returns exactly
`max(0, digamma(n) + mean(digamma(k)) - mean(digamma(nx+1))
 - mean(digamma(ny+1)))`, where the radii come from the column-concatenated
joint space and `nx`, `ny` are, per sample, the numbers of other points
(self excluded) within that sample's radius in the X-only and Y-only
subspaces. -/
theorem c2_compute_mi_formula (ψ : ℚ → ℚ) (noise : ℕ → ℕ → ℕ → ℚ)
    (lx ly : Vec) (nn : ℕ) (hlen : ly.length = lx.length)
    (hnn : nn + 1 ≤ lx.length) :
    compute_mi ψ (.rank1 lx) (.rank1 ly) nn .none noise =
      ([.indexBuilt, .indexBuilt, .indexBuilt],
        .ok (max 0 (ψ lx.length
          + qmean ((miKvec (hstackT (toCol lx) (toCol ly))
              (jointRadii (hstackT (toCol lx) (toCol ly)) nn) nn .none).map
              fun v : ℕ => ψ (v : ℚ))
          - qmean ((List.range lx.length).map fun i =>
              ψ ((specCountOthersWithin (toCol lx) i
                ((jointRadii (hstackT (toCol lx) (toCol ly)) nn).getD i 0)
                : ℚ) + 1))
          - qmean ((List.range lx.length).map fun i =>
              ψ ((specCountOthersWithin (toCol ly) i
                ((jointRadii (hstackT (toCol lx) (toCol ly)) nn).getD i 0)
                : ℚ) + 1))))) := by
  rw [compute_mi_rank1_none_eq ψ noise lx ly nn hlen hnn]
  have hrx : (jointRadii (hstackT (toCol lx) (toCol ly)) nn).length =
      (toCol lx).length := by
    simp [jointRadii, hstackT_length, toCol, hlen]
  have hry : (jointRadii (hstackT (toCol lx) (toCol ly)) nn).length =
      (toCol ly).length := by
    simp [jointRadii, hstackT_length, toCol, hlen]
  rw [miRaw, countsList_eq_spec _ _ hrx, countsList_eq_spec _ _ hry,
    List.map_map, List.map_map]
  simp [toCol, Function.comp_def, hlen]

/-- C2 witness: a concrete valid three-sample call, with `digamma` taken to
be the identity. -/
theorem c2_witness :
    compute_mi (fun q => q) (.rank1 [0, 1, 2]) (.rank1 [5, 5, 6]) 1 .none
      (fun _ _ _ => 0) =
      ([.indexBuilt, .indexBuilt, .indexBuilt], .ok (4 / 3)) := by
  rw [c2_compute_mi_formula (fun q => q) (fun _ _ _ => 0) [0, 1, 2]
    [5, 5, 6] 1 (by decide) (by decide)]
  decide

/-- C3: for rank-1 blocks of equal sample count with a valid neighbour
count and the noise argument unset, `compute_cmi` returns exactly
`max(0, mean(digamma(k)) - mean(digamma(nxz+1)) - mean(digamma(nyz+1))
 + mean(digamma(nz+1)))`, with the radii derived from the three-way joint
matrix XYZ and the counts taken in the X++Z, Y++Z and Z-only subspaces
(self excluded) — and with no `digamma(n)` term. -/
theorem c3_compute_cmi_formula (ψ : ℚ → ℚ) (noise : ℕ → ℕ → ℕ → ℚ)
    (lx ly lz : Vec) (nn : ℕ) (hy : ly.length = lx.length)
    (hz : lz.length = lx.length) (hnn : nn + 1 ≤ lx.length) :
    compute_cmi ψ (.rank1 lx) (.rank1 ly) (.rank1 lz) nn .none noise =
      ([.indexBuilt, .indexBuilt, .indexBuilt, .indexBuilt],
        .ok (max 0 (
          qmean ((miKvec (hstackT (hstackT (toCol lx) (toCol ly)) (toCol lz))
              (jointRadii (hstackT (hstackT (toCol lx) (toCol ly))
                (toCol lz)) nn) nn .none).map fun v : ℕ => ψ (v : ℚ))
          - qmean ((List.range lx.length).map fun i =>
              ψ ((specCountOthersWithin (hstackT (toCol lx) (toCol lz)) i
                ((jointRadii (hstackT (hstackT (toCol lx) (toCol ly))
                  (toCol lz)) nn).getD i 0) : ℚ) + 1))
          - qmean ((List.range lx.length).map fun i =>
              ψ ((specCountOthersWithin (hstackT (toCol ly) (toCol lz)) i
                ((jointRadii (hstackT (hstackT (toCol lx) (toCol ly))
                  (toCol lz)) nn).getD i 0) : ℚ) + 1))
          + qmean ((List.range lx.length).map fun i =>
              ψ ((specCountOthersWithin (toCol lz) i
                ((jointRadii (hstackT (hstackT (toCol lx) (toCol ly))
                  (toCol lz)) nn).getD i 0) : ℚ) + 1))))) := by
  rw [compute_cmi_rank1_none_eq ψ noise lx ly lz nn hy hz hnn]
  have hrxz : (jointRadii (hstackT (hstackT (toCol lx) (toCol ly))
      (toCol lz)) nn).length = (hstackT (toCol lx) (toCol lz)).length := by
    simp [jointRadii, hstackT_length, toCol, hy, hz]
  have hryz : (jointRadii (hstackT (hstackT (toCol lx) (toCol ly))
      (toCol lz)) nn).length = (hstackT (toCol ly) (toCol lz)).length := by
    simp [jointRadii, hstackT_length, toCol, hy, hz]
  have hrz : (jointRadii (hstackT (hstackT (toCol lx) (toCol ly))
      (toCol lz)) nn).length = (toCol lz).length := by
    simp [jointRadii, hstackT_length, toCol, hy, hz]
  rw [cmiRaw, countsList_eq_spec _ _ hrxz, countsList_eq_spec _ _ hryz,
    countsList_eq_spec _ _ hrz, List.map_map, List.map_map, List.map_map]
  have hlxz : (hstackT (toCol lx) (toCol lz)).length = lx.length := by
    simp [hstackT_length, toCol, hz]
  have hlyz : (hstackT (toCol ly) (toCol lz)).length = lx.length := by
    simp [hstackT_length, toCol, hy, hz]
  rw [hlxz, hlyz]
  simp [toCol, Function.comp_def, hy, hz]

/-- C3 witness: a concrete valid four-sample call with a constant
conditioning block, with `digamma` taken to be the identity. -/
theorem c3_witness :
    compute_cmi (fun q => q) (.rank1 [0, 1, 2, 3]) (.rank1 [5, 5, 7, 7])
      (.rank1 [9, 9, 9, 9]) 1 .none (fun _ _ _ => 0) =
      ([.indexBuilt, .indexBuilt, .indexBuilt, .indexBuilt], .ok 2) := by
  rw [c3_compute_cmi_formula (fun q => q) (fun _ _ _ => 0) [0, 1, 2, 3]
    [5, 5, 7, 7] [9, 9, 9, 9] 1 (by decide) (by decide) (by decide)]
  decide

/-- C4: with the noise argument unset, every sample whose joint-space radius
is zero gets `k_i` equal to the number of samples sharing its exact joint
row minus one (the duplicate count taken over the whole sample, which the
restriction to zero-radius rows does not change, since every duplicate of a
zero-radius row also has zero radius), and every sample with a nonzero
radius keeps `k_i = n_neighbors`. -/
theorem c4_tie_breaking (pts : Mat) (nn i : ℕ) (_hnn : nn + 1 ≤ pts.length)
    (hi : i < pts.length) :
    ((jointRadii pts nn).getD i 0 = 0 →
      (miKvec pts (jointRadii pts nn) nn .none).getD i 0 =
        (pts.filter fun q => decide (q = pts.getD i [])).length - 1)
    ∧ ((jointRadii pts nn).getD i 0 ≠ 0 →
      (miKvec pts (jointRadii pts nn) nn .none).getD i 0 = nn) := by
  have hj : jointRadii pts nn = pts.map fun p => kthDist pts p nn := rfl
  have hlist : miKvec pts (jointRadii pts nn) nn .none =
      pts.map fun p =>
        if kthDist pts p nn = 0 then
          ((pts.filter fun q => decide (kthDist pts q nn = 0)).filter fun q =>
            decide (q = p)).length - 1
        else nn := by
    rw [hj]
    exact miKvec_none pts (fun p => kthDist pts p nn) nn
  have hri : (jointRadii pts nn).getD i 0 = kthDist pts (pts.getD i []) nn := by
    have hrlen : i < (jointRadii pts nn).length := by
      simp [jointRadii]
      omega
    rw [List.getD_eq_getElem _ _ hrlen]
    simp only [jointRadii, List.getElem_map]
    rw [List.getD_eq_getElem _ _ hi]
  have hki : (miKvec pts (jointRadii pts nn) nn .none).getD i 0 =
      if kthDist pts (pts.getD i []) nn = 0 then
        ((pts.filter fun q => decide (kthDist pts q nn = 0)).filter fun q =>
          decide (q = pts.getD i [])).length - 1
      else nn := by
    have hklen : i < (miKvec pts (jointRadii pts nn) nn .none).length := by
      rw [hlist]
      simp
      omega
    rw [List.getD_eq_getElem _ _ hklen]
    have hklen2 : i < (pts.map fun p =>
        if kthDist pts p nn = 0 then
          ((pts.filter fun q => decide (kthDist pts q nn = 0)).filter fun q =>
            decide (q = p)).length - 1
        else nn).length := by
      simp
      omega
    rw [List.getElem_of_eq hlist hklen]
    simp only [List.getElem_map]
    rw [List.getD_eq_getElem _ _ hi]
  constructor
  · intro h0
    rw [hri] at h0
    rw [hki, if_pos h0,
      masked_filter_mult pts (fun p => kthDist pts p nn) _ h0]
  · intro h0
    rw [hri] at h0
    rw [hki, if_neg h0]

/-- C4 witness: three duplicate rows and one stray row with one neighbour;
row 0 has zero radius and multiplicity 3, so its `k` is 2; row 3 has
radius 5 and keeps `k = 1`. -/
theorem c4_witness :
    (((jointRadii [[0], [0], [0], [5]] 1).getD 0 0 = 0 →
      (miKvec [[0], [0], [0], [5]] (jointRadii [[0], [0], [0], [5]] 1) 1
        .none).getD 0 0 =
        (([[0], [0], [0], [5]] : Mat).filter fun q =>
          decide (q = ([[0], [0], [0], [5]] : Mat).getD 0 [])).length - 1)
    ∧ ((jointRadii [[0], [0], [0], [5]] 1).getD 0 0 ≠ 0 →
      (miKvec [[0], [0], [0], [5]] (jointRadii [[0], [0], [0], [5]] 1) 1
        .none).getD 0 0 = 1))
    ∧ (((jointRadii [[0], [0], [0], [5]] 1).getD 3 0 = 0 →
      (miKvec [[0], [0], [0], [5]] (jointRadii [[0], [0], [0], [5]] 1) 1
        .none).getD 3 0 =
        (([[0], [0], [0], [5]] : Mat).filter fun q =>
          decide (q = ([[0], [0], [0], [5]] : Mat).getD 3 [])).length - 1)
    ∧ ((jointRadii [[0], [0], [0], [5]] 1).getD 3 0 ≠ 0 →
      (miKvec [[0], [0], [0], [5]] (jointRadii [[0], [0], [0], [5]] 1) 1
        .none).getD 3 0 = 1)) :=
  ⟨c4_tie_breaking [[0], [0], [0], [5]] 1 0 (by decide) (by decide),
    c4_tie_breaking [[0], [0], [0], [5]] 1 3 (by decide) (by decide)⟩

theorem ensure_2d_cases (x : NDArray) :
    (∃ m, ensure_2d x = .ok m) ∨ ensure_2d x = .error .invalidShape := by
  cases x
  · exact Or.inl ⟨_, rfl⟩
  · exact Or.inr rfl
  · exact Or.inr rfl

theorem miPrep_not_truthy_errors (x y : NDArray) (nt : NoiseArg)
    (noise : ℕ → ℕ → ℕ → ℚ) (h : nt.truthy = false) (e : Err)
    (he : miPrep x y nt noise = .error e) :
    e = .invalidShape ∨ e = .dimensionMismatch := by
  rcases ensure_2d_cases x with ⟨mx, hx⟩ | hx
  · rcases ensure_2d_cases y with ⟨my, hy⟩ | hy
    · by_cases hc : mx.length = my.length
      · simp only [miPrep, hx, hy, h, Bool.false_eq_true, if_false, hstack2,
          if_pos hc] at he
        simp at he
      · simp only [miPrep, hx, hy, h, Bool.false_eq_true, if_false, hstack2,
          if_neg hc, Except.error.injEq] at he
        exact Or.inr he.symm
    · simp only [miPrep, hx, hy, h, Bool.false_eq_true, if_false,
        Except.error.injEq] at he
      exact Or.inl he.symm
  · simp only [miPrep, hx, Except.error.injEq] at he
    exact Or.inl he.symm

theorem cmiPrep_not_truthy_errors (x y z : NDArray) (nt : NoiseArg)
    (noise : ℕ → ℕ → ℕ → ℚ) (h : nt.truthy = false) (e : Err)
    (he : cmiPrep x y z nt noise = .error e) :
    e = .invalidShape ∨ e = .dimensionMismatch := by
  rcases ensure_2d_cases x with ⟨mx, hx⟩ | hx
  · rcases ensure_2d_cases y with ⟨my, hy⟩ | hy
    · rcases ensure_2d_cases z with ⟨mz, hz⟩ | hz
      · by_cases hc : mx.length = my.length ∧ my.length = mz.length
        · simp only [cmiPrep, hx, hy, hz, h, Bool.false_eq_true, if_false,
            hstack3, if_pos hc] at he
          simp at he
        · simp only [cmiPrep, hx, hy, hz, h, Bool.false_eq_true, if_false,
            hstack3, if_neg hc, Except.error.injEq] at he
          exact Or.inr he.symm
      · simp only [cmiPrep, hx, hy, hz, h, Bool.false_eq_true, if_false,
          Except.error.injEq] at he
        exact Or.inl he.symm
    · simp only [cmiPrep, hx, hy, h, Bool.false_eq_true, if_false,
        Except.error.injEq] at he
      exact Or.inl he.symm
  · simp only [cmiPrep, hx, Except.error.injEq] at he
    exact Or.inl he.symm

/-- C8: whenever `compute_mi` or `compute_cmi` returns a value (for any
inputs, any digamma, any noise setting and any random draws), that value is
non-negative; and a negative raw estimate is reported as exactly zero
rather than as an error, witnessed by a concrete input whose raw bivariate
estimate is `-100` while the call returns `ok 0`. -/
theorem c8_nonneg :
    (∀ (ψ : ℚ → ℚ) (x y : NDArray) (nn : ℕ) (nt : NoiseArg)
      (noise : ℕ → ℕ → ℕ → ℚ) (evs : List Event) (v : ℚ),
      compute_mi ψ x y nn nt noise = (evs, .ok v) → 0 ≤ v)
    ∧ (∀ (ψ : ℚ → ℚ) (x y z : NDArray) (nn : ℕ) (nt : NoiseArg)
      (noise : ℕ → ℕ → ℕ → ℚ) (evs : List Event) (v : ℚ),
      compute_cmi ψ x y z nn nt noise = (evs, .ok v) → 0 ≤ v)
    ∧ (miRaw (fun q => if q = 1 then 100 else 0) 4 [1, 1, 1, 1]
        [0, 0, 0, 0] [0, 0, 0, 0] < 0
      ∧ compute_mi (fun q => if q = 1 then 100 else 0)
          (.rank1 [0, 10, 20, 30]) (.rank1 [0, 10, 20, 30]) 1 .none
          (fun _ _ _ => 0) =
        ([.indexBuilt, .indexBuilt, .indexBuilt], .ok 0)) := by
  refine ⟨?_, ?_, by decide, by decide⟩
  · intro ψ x y nn nt noise evs v h
    cases hp : miPrep x y nt noise with
    | error e =>
        simp only [compute_mi, hp] at h
        exact absurd (congrArg Prod.snd h) (by simp)
    | ok p =>
        obtain ⟨x3, y3, xy⟩ := p
        by_cases hr : xy.length < nn + 1
        · simp only [compute_mi, hp, get_radius_kneighbors, if_pos hr,
            bindE] at h
          exact absurd (congrArg Prod.snd h) (by simp)
        · simp only [compute_mi, hp, get_radius_kneighbors, if_neg hr,
            bindE, num_points_within_radius] at h
          have h2 := congrArg Prod.snd h
          simp only [Except.ok.injEq] at h2
          rw [← h2]
          exact le_max_left 0 _
  · intro ψ x y z nn nt noise evs v h
    cases hp : cmiPrep x y z nt noise with
    | error e =>
        simp only [compute_cmi, hp] at h
        exact absurd (congrArg Prod.snd h) (by simp)
    | ok p =>
        obtain ⟨x3, y3, z3, xyz⟩ := p
        by_cases hr : xyz.length < nn + 1
        · simp only [compute_cmi, hp, get_radius_kneighbors, if_pos hr,
            bindE] at h
          exact absurd (congrArg Prod.snd h) (by simp)
        · simp only [compute_cmi, hp, get_radius_kneighbors, if_neg hr,
            bindE, num_points_within_radius] at h
          have h2 := congrArg Prod.snd h
          simp only [Except.ok.injEq] at h2
          rw [← h2]
          exact le_max_left 0 _

/-- C8 witness: a concrete successful bivariate call returning 3 with the
identity in place of digamma. -/
theorem c8_witness : (0 : ℚ) ≤ 3 :=
  c8_nonneg.1 (fun q => q) (.rank1 [0, 1, 2, 3]) (.rank1 [0, 1, 2, 3]) 1
    .none (fun _ _ _ => 0) [.indexBuilt, .indexBuilt, .indexBuilt] 3
    (by decide)

/-- C9: with the noise argument unset, rank-1 blocks of equal length,
`1 ≤ n_neighbors < n` — duplicate-heavy two-valued data included — the
estimator does not fail: it returns the clamped, hence finite and
non-negative, estimate, and every argument handed to the digamma function
is strictly positive: `n > 0`, every per-sample `k_i > 0` (a zero radius
forces at least `n_neighbors + 1` duplicate rows, so the multiplicity
correction leaves `k_i ≥ n_neighbors`), and every within-radius count plus
one is positive. -/
theorem c9_duplicate_safe (ψ : ℚ → ℚ) (noise : ℕ → ℕ → ℕ → ℚ) (lx ly : Vec)
    (nn : ℕ) (hlen : ly.length = lx.length) (h1 : 1 ≤ nn)
    (hnn : nn + 1 ≤ lx.length) :
    (compute_mi ψ (.rank1 lx) (.rank1 ly) nn .none noise).2 =
      .ok (max 0 (miRaw ψ lx.length
        (miKvec (hstackT (toCol lx) (toCol ly))
          (jointRadii (hstackT (toCol lx) (toCol ly)) nn) nn .none)
        (countsList (toCol lx)
          (jointRadii (hstackT (toCol lx) (toCol ly)) nn))
        (countsList (toCol ly)
          (jointRadii (hstackT (toCol lx) (toCol ly)) nn))))
    ∧ 0 ≤ max 0 (miRaw ψ lx.length
        (miKvec (hstackT (toCol lx) (toCol ly))
          (jointRadii (hstackT (toCol lx) (toCol ly)) nn) nn .none)
        (countsList (toCol lx)
          (jointRadii (hstackT (toCol lx) (toCol ly)) nn))
        (countsList (toCol ly)
          (jointRadii (hstackT (toCol lx) (toCol ly)) nn)))
    ∧ 0 < lx.length
    ∧ ((miKvec (hstackT (toCol lx) (toCol ly))
        (jointRadii (hstackT (toCol lx) (toCol ly)) nn) nn .none).all
        fun ki => decide (0 < ki)) = true
    ∧ ((countsList (toCol lx)
        (jointRadii (hstackT (toCol lx) (toCol ly)) nn)).all
        fun c => decide (0 < c + 1)) = true
    ∧ ((countsList (toCol ly)
        (jointRadii (hstackT (toCol lx) (toCol ly)) nn)).all
        fun c => decide (0 < c + 1)) = true := by
  have hmain := compute_mi_rank1_none_eq ψ noise lx ly nn hlen hnn
  refine ⟨by rw [hmain], le_max_left 0 _, by omega, ?_, ?_, ?_⟩
  · rw [List.all_eq_true]
    intro ki hki
    have hptslen : (hstackT (toCol lx) (toCol ly)).length = lx.length := by
      rw [hstackT_length]
      simp [toCol, hlen]
    have hrows : ∀ r ∈ hstackT (toCol lx) (toCol ly), r.length = 2 :=
      hstackT_rows_length (toCol lx) (toCol ly) 1 1
        (toCol_rows_length lx) (toCol_rows_length ly)
    have hj : jointRadii (hstackT (toCol lx) (toCol ly)) nn =
        (hstackT (toCol lx) (toCol ly)).map fun p =>
          kthDist (hstackT (toCol lx) (toCol ly)) p nn := rfl
    rw [hj, miKvec_none] at hki
    obtain ⟨p, hp, rfl⟩ := List.mem_map.mp hki
    rw [decide_eq_true_eq]
    by_cases h0 : kthDist (hstackT (toCol lx) (toCol ly)) p nn = 0
    · rw [if_pos h0, masked_filter_mult (hstackT (toCol lx) (toCol ly))
        (fun q => kthDist (hstackT (toCol lx) (toCol ly)) q nn) p h0]
      have hmult := kthDist_zero_mult (hstackT (toCol lx) (toCol ly)) p nn
        (by omega) h0
      have hcz := count_zero_eq_mult (hstackT (toCol lx) (toCol ly)) p 2
        hrows (hrows p hp)
      omega
    · rw [if_neg h0]
      omega
  · rw [List.all_eq_true]
    intro c _
    rw [decide_eq_true_eq]
    omega
  · rw [List.all_eq_true]
    intro c _
    rw [decide_eq_true_eq]
    omega

/-- C9 witness: two-valued duplicate-heavy data, eight samples, three
neighbours: the estimator succeeds with a finite non-negative value. -/
theorem c9_witness :
    (compute_mi (fun q => q) (.rank1 [0, 0, 0, 0, 1, 1, 1, 1])
      (.rank1 [0, 0, 0, 0, 1, 0, 1, 1]) 3 .none (fun _ _ _ => 0)).2 =
      .ok (11 / 4) := by
  have h := (c9_duplicate_safe (fun q => q) (fun _ _ _ => 0)
    [0, 0, 0, 0, 1, 1, 1, 1] [0, 0, 0, 0, 1, 0, 1, 1] 3 (by decide)
    (by decide) (by decide)).1
  rw [h]
  decide

theorem miPrep_not_truthy_noise (x y : NDArray) (nt : NoiseArg)
    (noise noise2 : ℕ → ℕ → ℕ → ℚ) (h : nt.truthy = false) :
    miPrep x y nt noise = miPrep x y nt noise2 := by
  simp only [miPrep, h, Bool.false_eq_true, if_false]

theorem cmiPrep_not_truthy_noise (x y z : NDArray) (nt : NoiseArg)
    (noise noise2 : ℕ → ℕ → ℕ → ℚ) (h : nt.truthy = false) :
    cmiPrep x y z nt noise = cmiPrep x y z nt noise2 := by
  simp only [cmiPrep, h, Bool.false_eq_true, if_false]

/-- C10: a falsy non-`None` `noise_type` (the empty string, `0`, `False`)
makes `compute_mi` and `compute_cmi` raise no invalid-noise-kind error and
add no jitter (the result does not depend on the random draws at all), yet
it also skips the zero-radius duplicate-multiplicity correction, which runs
only when `noise_type` is exactly `None`: the `k` vector is the constant
`n_neighbors` vector — even on duplicate rows with zero radius, where the
`None` setting would have corrected `k` (final conjunct: on three identical
rows with one neighbour, the falsy setting keeps `k = [1, 1, 1]` while
`None` yields `[2, 2, 2]`). -/
theorem c10_falsy_noise_type :
    (∀ (ψ : ℚ → ℚ) (x y : NDArray) (nn t : ℕ)
      (noise : ℕ → ℕ → ℕ → ℚ),
      (compute_mi ψ x y nn (.falsy t) noise).2 ≠ .error .invalidNoiseKind)
    ∧ (∀ (ψ : ℚ → ℚ) (x y z : NDArray) (nn t : ℕ)
      (noise : ℕ → ℕ → ℕ → ℚ),
      (compute_cmi ψ x y z nn (.falsy t) noise).2 ≠
        .error .invalidNoiseKind)
    ∧ (∀ (ψ : ℚ → ℚ) (x y : NDArray) (nn t : ℕ)
      (noise noise2 : ℕ → ℕ → ℕ → ℚ),
      compute_mi ψ x y nn (.falsy t) noise =
        compute_mi ψ x y nn (.falsy t) noise2)
    ∧ (∀ (ψ : ℚ → ℚ) (x y z : NDArray) (nn t : ℕ)
      (noise noise2 : ℕ → ℕ → ℕ → ℚ),
      compute_cmi ψ x y z nn (.falsy t) noise =
        compute_cmi ψ x y z nn (.falsy t) noise2)
    ∧ (∀ (pts : Mat) (radii : List ℚ) (nn t : ℕ),
      miKvec pts radii nn (.falsy t) = List.replicate pts.length nn)
    ∧ (miKvec [[0], [0], [0]] (jointRadii [[0], [0], [0]] 1) 1 (.falsy 0) =
        [1, 1, 1]
      ∧ miKvec [[0], [0], [0]] (jointRadii [[0], [0], [0]] 1) 1 .none =
        [2, 2, 2]) := by
  refine ⟨?_, ?_, ?_, ?_, ?_, by decide, by decide⟩
  · intro ψ x y nn t noise
    cases hp : miPrep x y (.falsy t) noise with
    | error e =>
        rcases miPrep_not_truthy_errors x y (.falsy t) noise rfl e hp with
          h | h <;> simp [compute_mi, hp, h]
    | ok p =>
        obtain ⟨x3, y3, xy⟩ := p
        by_cases hr : xy.length < nn + 1
        · simp [compute_mi, hp, get_radius_kneighbors, if_pos hr, bindE]
        · simp [compute_mi, hp, get_radius_kneighbors, if_neg hr, bindE,
            num_points_within_radius]
  · intro ψ x y z nn t noise
    cases hp : cmiPrep x y z (.falsy t) noise with
    | error e =>
        rcases cmiPrep_not_truthy_errors x y z (.falsy t) noise rfl e hp with
          h | h <;> simp [compute_cmi, hp, h]
    | ok p =>
        obtain ⟨x3, y3, z3, xyz⟩ := p
        by_cases hr : xyz.length < nn + 1
        · simp [compute_cmi, hp, get_radius_kneighbors, if_pos hr, bindE]
        · simp [compute_cmi, hp, get_radius_kneighbors, if_neg hr, bindE,
            num_points_within_radius]
  · intro ψ x y nn t noise noise2
    unfold compute_mi
    rw [miPrep_not_truthy_noise x y (.falsy t) noise noise2 rfl]
  · intro ψ x y z nn t noise noise2
    unfold compute_cmi
    rw [cmiPrep_not_truthy_noise x y z (.falsy t) noise noise2 rfl]
  · intro pts radii nn t
    unfold miKvec
    rw [if_neg (by simp)]
